import Mathlib

/-!
# A shallow embedding of `shell.c` (the `lsh` interactive shell)

The C translation unit is embedded function by function.

* The line buffer handed to `lsh_split_line` is a list of characters ending in
  the terminating NUL, one character standing for one `char`; pointers into it
  are indices.  `strtok` is modelled from its ISO C description, including the
  NUL bytes it writes into the buffer.
* The token array is a list of cells whose length is the number of allocated
  entries; `malloc` yields uninitialised cells and `realloc` keeps the old
  cells and appends uninitialised ones.  Allocation may fail (`Sys.alloc`).
* Effects on the outside world are recorded in a `World`: the working
  directory and the trace of writes and system calls issued by this process.
  Answers of the operating system come from an oracle record `Sys`.
* The `int` variables `bufsize` and `position` never go negative; they are
  naturals not above `INT_MAX`, and an addition whose result would exceed
  `INT_MAX` is a signed overflow, which has no defined behaviour (`int_add`).
-/

namespace Lsh

/-! ## World, environment and outcomes -/

/-- The two output streams the program writes to. -/
inductive Fd where
  | stdout
  | stderr
  deriving DecidableEq

/-- The status word filled in by `waitpid(pid, &status, WUNTRACED)`. -/
inductive WaitStatus where
  | exited (code : Nat)
  | signaled (sig : Nat)
  | stopped (sig : Nat)
  deriving DecidableEq

/-- The macro `WIFEXITED(status)`. -/
def WIFEXITED : WaitStatus → Bool
  | .exited _ => true
  | _ => false

/-- The macro `WIFSIGNALED(status)`. -/
def WIFSIGNALED : WaitStatus → Bool
  | .signaled _ => true
  | _ => false

/-- One observable action of the shell process. -/
inductive Event where
  | write (fd : Fd) (s : String)
  | getline (r : Option String)
  | chdir (path : String)
  | fork
  | execvp (file : String) (argv : List String)
  | waitpid (pid : Nat) (st : WaitStatus)
  deriving DecidableEq

/-- Process-visible state: the working directory and everything the process
has done so far, oldest event first. -/
structure World where
  cwd : String
  trace : List Event
  deriving DecidableEq

/-- Append one event to the trace. -/
def World.log (w : World) (e : Event) : World :=
  { w with trace := w.trace ++ [e] }

/-- A `printf`/`fprintf` call: one write of `s` to `fd`. -/
def World.write (w : World) (fd : Fd) (s : String) : World :=
  w.log (.write fd s)

/-- The bytes of one event that went to `fd`. -/
def Event.bytesOn (fd : Fd) : Event → String
  | .write fd1 s => if fd1 = fd then s else ""
  | _ => ""

/-- All bytes written to `fd` so far. -/
def World.output (w : World) (fd : Fd) : String :=
  String.join (w.trace.map (Event.bytesOn fd))

/-- What `fork()` returned: `pid < 0`, `pid > 0`, or `pid == 0`. -/
inductive ForkResult where
  | failed (errno : Nat)
  | parent (pid : Nat)
  | child
  deriving DecidableEq

/-- The answers of the C library and the operating system. -/
structure Sys where
  /-- whether a request for `n` pointer slots (`malloc`/`realloc`) is granted -/
  alloc : Nat → Bool
  /-- the call `chdir(path)`: the new working directory, or the `errno` of the failure -/
  chdir : World → String → Except Nat String
  /-- the return value of `fork()` in the process being followed -/
  fork : World → ForkResult
  /-- the call `execvp(file, argv)`: `none` when the image is replaced, else `errno` -/
  execvp : World → String → List String → Option Nat
  /-- the statuses successive `waitpid` calls on the child report -/
  waitpid : World → Nat → List WaitStatus
  /-- the value of `errno` when `getline` returns `-1` -/
  getlineErrno : World → Nat
  /-- the function `strerror` -/
  strerror : Nat → String

/-- How a C function call ends. -/
inductive Outcome (α : Type) where
  /-- the function returned `val` to its caller -/
  | returned (val : α) (w : World)
  /-- the call `exit(code)` was made: the process is gone -/
  | exited (code : Nat) (w : World)
  /-- the call of `execvp` succeeded: the process now runs another program -/
  | replaced (w : World)
  /-- the call of `waitpid` never reports the end of the child -/
  | blocked (w : World)
  /-- an access the C standard leaves undefined -/
  | undefined
  /-- the iteration bound of the model was used up -/
  | outOfFuel
  deriving DecidableEq

/-- The constant `EXIT_FAILURE`. -/
def EXIT_FAILURE : Nat := 1

/-- The call `perror(s)` with `errno = e`. -/
def perror (sys : Sys) (s : String) (e : Nat) (w : World) : World :=
  w.write .stderr (s ++ ": " ++ sys.strerror e ++ "\n")

/-! ## C strings in a buffer -/

/-- The NUL character. -/
def NUL : Char := Char.ofNat 0

/-- The constant `LSH_TOK_BUFSIZE`. -/
def LSH_TOK_BUFSIZE : Nat := 64

/-- The constant `INT_MAX` of the 32-bit `int`. -/
def INT_MAX : Nat := 2147483647

/-- The sum `a + b` of two non-negative `int` values, or `none` when it would
exceed `INT_MAX`: signed overflow, which C leaves undefined. -/
def int_add (a b : Nat) : Option Nat :=
  if a + b ≤ INT_MAX then some (a + b) else none

/-- The constant `LSH_TOK_DELIM`, the string `" \t\r\n\a"`. -/
def LSH_TOK_DELIM : List Char := [' ', '\t', '\r', '\n', Char.ofNat 7]

/-- The read `*p` for a pointer `p` into the buffer. -/
def peek (mem : List Char) (p : Nat) : Char := mem.getD p NUL

/-- The call `strspn(s, accept)`: length of the initial run of characters of `accept`. -/
def strspn (mem : List Char) (s : Nat) (accept : List Char) : Nat :=
  ((mem.drop s).takeWhile (fun c => c != NUL && accept.contains c)).length

/-- The call `strcspn(s, reject)`: length of the initial run free of `reject`. -/
def strcspn (mem : List Char) (s : Nat) (reject : List Char) : Nat :=
  ((mem.drop s).takeWhile (fun c => c != NUL && !reject.contains c)).length

/-- The C string starting at `p`: the characters up to the next NUL. -/
def cstr (mem : List Char) (p : Nat) : String :=
  String.mk ((mem.drop p).takeWhile (fun c => c != NUL))

/-- The call `strtok(str, delim)` (ISO C 7.24.5.8) on buffer `mem` with saved pointer
`save`.  Returns the token pointer (or `none` for a null pointer), the buffer
and the new saved pointer. -/
def strtok (mem : List Char) (save : Nat) (str : Option Nat) (delim : List Char) :
    Option Nat × List Char × Nat :=
  let s := str.getD save
  let s := s + strspn mem s delim
  if peek mem s = NUL then
    (none, mem, s)
  else
    let e := s + strcspn mem s delim
    if peek mem e = NUL then
      (some s, mem, e)
    else
      (some s, mem.set e NUL, e + 1)

/-! ## `lsh_split_line` -/

/-- One entry of the `char **tokens` block. -/
inductive Cell where
  | uninit
  | null
  | ptr (p : Nat)
  deriving DecidableEq

/-- The variables of `lsh_split_line`, with two ghost logs: every store into
`tokens` as `(index, number of entries allocated at that moment)`, and every
value `bufsize` has had.  The `int` variables `bufsize` and `position` hold
values from `0` to `INT_MAX`; they change only through `int_add`. -/
structure Split where
  mem : List Char
  save : Nat
  tokens : List Cell
  bufsize : Nat
  position : Nat
  stores : List (Nat × Nat)
  caps : List Nat
  deriving DecidableEq

/-- The block `if (position >= bufsize) { bufsize += LSH_TOK_BUFSIZE; tokens =
realloc(tokens, bufsize * sizeof(char *)); if (!tokens) { ... exit } }`: it
returns the token block, its capacity and the capacity log.  The addition is
done in `int`; the byte count is computed in `size_t`, where a slot count up
to `INT_MAX` does not wrap. -/
def grow_tokens (sys : Sys) (tokens : List Cell) (bufsize position : Nat) (caps : List Nat)
    (w : World) : Outcome (List Cell × Nat × List Nat) :=
  if position ≥ bufsize then
    -- bufsize += LSH_TOK_BUFSIZE;
    match int_add bufsize LSH_TOK_BUFSIZE with
    | none => .undefined
    | some bufsize =>
      -- tokens = realloc(tokens, bufsize * sizeof(char *));
      if sys.alloc bufsize then
        .returned
          (tokens ++ List.replicate LSH_TOK_BUFSIZE Cell.uninit, bufsize, caps ++ [bufsize]) w
      else
        .exited EXIT_FAILURE (w.write .stderr "lsh: allocation error\n")
  else .returned (tokens, bufsize, caps) w

/-- The `while (token != NULL)` loop of `lsh_split_line`.  A store at an
index outside the allocated block, and an overflow of `position++` or of
`bufsize += LSH_TOK_BUFSIZE`, have no defined behaviour. -/
def split_loop (sys : Sys) : Nat → Option Nat → Split → World → Outcome Split
  | _, none, st, w => .returned st w
  | 0, some _, _, _ => .outOfFuel
  | fuel + 1, some token, st, w =>
    if st.position < st.tokens.length then
      -- tokens[position] = token;
      let tokens := st.tokens.set st.position (.ptr token)
      let stores := st.stores ++ [(st.position, st.tokens.length)]
      -- position++;
      match int_add st.position 1 with
      | none => .undefined
      | some position =>
        match grow_tokens sys tokens st.bufsize position st.caps w with
        | .returned (tokens, bufsize, caps) w1 =>
          -- token = strtok(NULL, LSH_TOK_DELIM);
          match strtok st.mem st.save none LSH_TOK_DELIM with
          | (token, mem, save) =>
            split_loop sys fuel token
              { mem := mem, save := save, tokens := tokens, bufsize := bufsize,
                position := position, stores := stores, caps := caps } w1
        | .exited c w1 => .exited c w1
        | .replaced w1 => .replaced w1
        | .blocked w1 => .blocked w1
        | .undefined => .undefined
        | .outOfFuel => .outOfFuel
    else
      -- a store past the end of the block
      .undefined

/-- The function `char **lsh_split_line(char *line)`.  The buffer is the line followed by
its terminating NUL. -/
def lsh_split_line (sys : Sys) (line : String) (w : World) : Outcome Split :=
  let bufsize := LSH_TOK_BUFSIZE
  if sys.alloc bufsize then
    let tokens := List.replicate bufsize Cell.uninit
    match strtok (line.data ++ [NUL]) 0 (some 0) LSH_TOK_DELIM with
    | (token, mem, save) =>
      match split_loop sys (line.data.length + 1) token
          { mem := mem, save := save, tokens := tokens, bufsize := bufsize,
            position := 0, stores := [], caps := [bufsize] } w with
      | .returned st w1 =>
        if st.position < st.tokens.length then
          -- tokens[position] = NULL;
          .returned { st with tokens := st.tokens.set st.position .null,
                              stores := st.stores ++ [(st.position, st.tokens.length)] } w1
        else
          -- a store past the end of the block
          .undefined
      | other => other
  else
    .exited EXIT_FAILURE (w.write .stderr "lsh: allocation error\n")

/-- Reading a `char **` the way its users do: entry after entry up to the
first null pointer.  `none` when an uninitialised entry or the end of the
block is met first. -/
def readArgv (mem : List Char) : List Cell → Option (List String)
  | [] => none
  | .uninit :: _ => none
  | .null :: _ => some []
  | .ptr p :: rest => (readArgv mem rest).map (fun ws => cstr mem p :: ws)

/-- The argument vector returned by `lsh_split_line`. -/
def Split.argv (r : Split) : Option (List String) := readArgv r.mem r.tokens

/-! ## Builtins, launcher and dispatcher

An argument vector `char **args` is read by these functions only up to its
null terminator; they take it as the list of its words. -/

/-- The function `int lsh_cd(char **args)`. -/
def lsh_cd (sys : Sys) (args : List String) (w : World) : Outcome Int :=
  match args[1]? with
  | none =>
    -- args[1] == NULL
    .returned 1 (w.write .stderr "lsh: expected argument to \"cd\"\n")
  | some path =>
    let w1 := w.log (.chdir path)
    match sys.chdir w path with
    | .ok dir => .returned 1 { w1 with cwd := dir }
    | .error e => .returned 1 (perror sys "lsh" e w1)

/-- The table `char *builtin_str[]`. -/
def builtin_str : List String := ["cd", "help", "exit"]

/-- The function `int lsh_num_builtins()`. -/
def lsh_num_builtins : Nat := builtin_str.length

/-- The function `int lsh_help(char **args)`. -/
def lsh_help (_sys : Sys) (_args : List String) (w : World) : Outcome Int :=
  let w := w.write .stdout "AP LSH\n"
  let w := w.write .stdout "Type program names and arguments, and hit enter.\n"
  let w := w.write .stdout "The following are built in:\n"
  let w := (List.range lsh_num_builtins).foldl
    (fun w i => w.write .stdout ("  " ++ builtin_str.getD i "" ++ "\n")) w
  let w := w.write .stdout "Use the man command for information on other programs.\n"
  .returned 1 w

/-- The function `int lsh_exit(char **args)`. -/
def lsh_exit (_sys : Sys) (_args : List String) (w : World) : Outcome Int :=
  .returned 0 w

/-- The table `int (*builtin_func[])(char **)`. -/
def builtin_func : List (Sys → List String → World → Outcome Int) :=
  [lsh_cd, lsh_help, lsh_exit]

/-- The `do { waitpid(...) } while (!WIFEXITED(status) && !WIFSIGNALED(status))`
loop of `lsh_launch`, run against the statuses the child will report.  Every
call is taken to report a status: the source never looks at `wpid`.  When the
statuses run out the call does not come back. -/
def wait_loop (pid : Nat) : List WaitStatus → World → Outcome Unit
  | [], w => .blocked w
  | status :: later, w =>
    let w1 := w.log (.waitpid pid status)
    if !WIFEXITED status && !WIFSIGNALED status then wait_loop pid later w1
    else .returned () w1

/-- The function `int lsh_launch(char **args)`. -/
def lsh_launch (sys : Sys) (args : List String) (w : World) : Outcome Int :=
  let w1 := w.log .fork
  match sys.fork w with
  | .child =>
    -- pid == 0
    let file := args.headD ""
    let w2 := w1.log (.execvp file args)
    match sys.execvp w1 file args with
    | none => .replaced w2
    | some e => .exited EXIT_FAILURE (perror sys "lsh" e w2)
  | .failed e =>
    -- pid < 0
    .returned 1 (perror sys "lsh" e w1)
  | .parent pid =>
    match wait_loop pid (sys.waitpid w1 pid) w1 with
    | .returned _ w2 => .returned 1 w2
    | .exited c w2 => .exited c w2
    | .replaced w2 => .replaced w2
    | .blocked w2 => .blocked w2
    | .undefined => .undefined
    | .outOfFuel => .outOfFuel

/-- The `for (i = 0; i < lsh_num_builtins(); i++)` loop of `lsh_execute` over
the indices still to visit, followed by the call of `lsh_launch`. -/
def execute_scan (sys : Sys) (args : List String) (w : World) (arg0 : String) :
    List Nat → Outcome Int
  | [] => lsh_launch sys args w
  | i :: later =>
    -- strcmp(args[0], builtin_str[i]) == 0
    if arg0 = builtin_str.getD i "" then
      match builtin_func[i]? with
      | some handler => handler sys args w
      | none => .undefined
    else execute_scan sys args w arg0 later

/-- The function `int lsh_execute(char **args)`. -/
def lsh_execute (sys : Sys) (args : List String) (w : World) : Outcome Int :=
  match args with
  | [] => .returned 1 w
  | arg0 :: _ => execute_scan sys args w arg0 (List.range lsh_num_builtins)

/-! ## The interactive loop -/

/-- Whether `c` is one of the delimiter characters (space, tab, carriage
return, newline, bell). -/
def isDelim (c : Char) : Bool := LSH_TOK_DELIM.contains c

/-- The characters of the C string a line buffer holds: all before the first
NUL.  For a NUL-free line this is the whole line. -/
def cString (line : String) : List Char := line.data.takeWhile (fun c => c != NUL)

/-- Every way of cutting a string in two, shortest first part first. -/
def cuts (l : List Char) : List (List Char × List Char) := List.zip l.inits l.tails

/-- The substring `word`, standing between `pre` and `post`, is non-empty,
holds no delimiter, and cannot be extended on either side: it is preceded by
nothing or a delimiter and followed by nothing or a delimiter. -/
def isMaximalWord (pre word post : List Char) : Bool :=
  !word.isEmpty && word.all (fun c => !isDelim c) &&
    pre.getLast?.all isDelim && post.head?.all isDelim

/-- The maximal non-empty delimiter-free substrings of `line`, by increasing
start position. -/
def maximalWords (line : List Char) : List (List Char) :=
  (cuts line).flatMap fun x =>
    ((cuts x.2).filter fun y => isMaximalWord x.1 y.1 y.2).map Prod.fst

/-- The words of an input line. -/
def lineWords (line : String) : List String := (maximalWords (cString line)).map String.mk

/-- The words of a string read left to right; the flag tells whether a word
may start at the first character (the line starts here or a delimiter
precedes). -/
def wordsFrom : Bool → List Char → List (List Char)
  | _, [] => []
  | b, c :: l =>
    (if b && !isDelim c then [(c :: l).takeWhile (fun x => !isDelim x)] else []) ++
      wordsFrom (isDelim c) l

/-- The C string at `p` is `w`, and it ends at or before `save`. -/
def Stored (mem : List Char) (save p : Nat) (w : List Char) : Prop :=
  ∃ pre rest, mem = pre ++ w ++ NUL :: rest ∧ pre.length = p ∧ (∀ x ∈ w, x ≠ NUL) ∧
    p + w.length ≤ save

/-- Shape of the token block and of the ghost logs after `position` stores. -/
structure LoopInv (st : Split) (ptrs : List Nat) : Prop where
  tokens_eq : st.tokens =
    ptrs.map Cell.ptr ++ List.replicate (st.bufsize - st.position) Cell.uninit
  len : ptrs.length = st.position
  cap : st.bufsize = 64 * (st.position / 64 + 1)
  stores_eq : st.stores = (List.range st.position).map (fun k => (k, 64 * (k / 64 + 1)))
  caps_eq : st.caps = (List.range (st.position / 64 + 1)).map (fun j => 64 * (j + 1))

/-- What `lsh_split_line` returns when allocation succeeds. -/
structure SplitPost (line : String) (r : Split) (ptrs : List Nat) : Prop where
  tokens_eq : r.tokens = ptrs.map Cell.ptr ++
    Cell.null :: List.replicate (r.bufsize - (r.position + 1)) Cell.uninit
  len : ptrs.length = r.position
  cap : r.bufsize = 64 * (r.position / 64 + 1)
  stores_eq : r.stores = (List.range (r.position + 1)).map (fun k => (k, 64 * (k / 64 + 1)))
  caps_eq : r.caps = (List.range (r.position / 64 + 1)).map (fun j => 64 * (j + 1))
  words : List.Forall₂ (fun p v => cstr r.mem p = String.mk v) ptrs
    (wordsFrom true (cString line))

/-! ## Sample environment -/

/-- An environment in which allocation succeeds, `/tmp` is the only directory
`chdir` accepts, `fork` returns in the parent with child 7, and the child is
reported stopped once and then exited. -/
def demoSys : Sys where
  alloc := fun _ => true
  chdir := fun _ path => if path = "/tmp" then Except.ok "/tmp" else Except.error 2
  fork := fun _ => ForkResult.parent 7
  execvp := fun _ _ _ => some 2
  waitpid := fun _ _ => [WaitStatus.stopped 19, WaitStatus.exited 0]
  getlineErrno := fun _ => 0
  strerror := fun _ => "No such file or directory"

/-- The same environment seen from the child side of `fork`. -/
def demoChildSys : Sys := { demoSys with fork := fun _ => ForkResult.child }

/-- The same environment when `fork` fails with `EAGAIN`. -/
def demoNoForkSys : Sys := { demoSys with fork := fun _ => ForkResult.failed 11 }

/-- A fresh world in the root directory. -/
def demoWorld : World := { cwd := "/", trace := [] }

/-- A line of 128 one-letter words. -/
def manyWords : String := String.join (List.replicate 128 "a ")

/-! ## The tokenizer -/

/-- NUL is not a delimiter. -/
theorem isDelim_NUL : isDelim NUL = false := by decide

/-- Scanning stops at the first element failing the test. -/
theorem takeWhile_stop {α : Type} (p : α → Bool) (xs : List α) (c : α) (t : List α)
    (hxs : ∀ x ∈ xs, p x = true) (hc : p c = false) :
    (xs ++ c :: t).takeWhile p = xs := by
  induction xs with
  | nil => simp [hc]
  | cons x xs ih =>
    have hx := hxs x (by simp)
    simp [hx, ih (fun y hy => hxs y (by simp [hy]))]

/-- Reading the buffer just past a known prefix. -/
theorem peek_at (xs : List Char) (c : Char) (t : List Char) :
    peek (xs ++ c :: t) xs.length = c := by
  unfold peek
  rw [List.getD_append_right _ _ _ _ (le_refl _)]
  simp

/-- The value of `strspn` on a run of delimiters ended by a non-delimiter. -/
theorem strspn_at (A ds : List Char) (c : Char) (t : List Char)
    (hds : ∀ x ∈ ds, isDelim x = true) (hc : isDelim c = false) :
    strspn (A ++ ds ++ c :: t) A.length LSH_TOK_DELIM = ds.length := by
  unfold strspn
  rw [List.append_assoc, List.drop_left]
  rw [takeWhile_stop _ ds c t]
  · intro x hx
    have h1 := hds x hx
    have h2 : x ≠ NUL := by
      intro h; rw [h, isDelim_NUL] at h1; exact absurd h1 (by simp)
    simpa [isDelim, h2] using h1
  · simpa [isDelim] using fun _ => hc

/-- The value of `strcspn` on a word ended by NUL or by a delimiter. -/
theorem strcspn_at (A w : List Char) (c : Char) (t : List Char)
    (hw : ∀ x ∈ w, isDelim x = false ∧ x ≠ NUL) (hc : c = NUL ∨ isDelim c = true) :
    strcspn (A ++ w ++ c :: t) A.length LSH_TOK_DELIM = w.length := by
  unfold strcspn
  rw [List.append_assoc, List.drop_left]
  rw [takeWhile_stop _ w c t]
  · intro x hx
    have h1 := hw x hx
    simpa [isDelim, h1.2] using h1.1
  · rcases hc with h | h
    · simp [h]
    · have : LSH_TOK_DELIM.contains c = true := h
      rw [this]
      simp

/-- All-delimiter remainder: no token. -/
theorem strtok_none (A ds t : List Char) (save : Nat) (str : Option Nat)
    (hstart : str.getD save = A.length) (hds : ∀ x ∈ ds, isDelim x = true) :
    strtok (A ++ ds ++ NUL :: t) save str LSH_TOK_DELIM =
      (none, A ++ ds ++ NUL :: t, (A ++ ds).length) := by
  unfold strtok
  simp only [hstart]
  rw [strspn_at A ds NUL t hds isDelim_NUL]
  have : A.length + ds.length = (A ++ ds).length := by simp
  rw [this, peek_at]
  simp

/-- The token is ended by the terminating NUL of the line. -/
theorem strtok_last (A ds w t : List Char) (save : Nat) (str : Option Nat)
    (hstart : str.getD save = A.length) (hds : ∀ x ∈ ds, isDelim x = true)
    (hw : ∀ x ∈ w, isDelim x = false ∧ x ≠ NUL) (hne : w ≠ []) :
    strtok (A ++ ds ++ w ++ NUL :: t) save str LSH_TOK_DELIM =
      (some (A ++ ds).length, A ++ ds ++ w ++ NUL :: t, (A ++ ds ++ w).length) := by
  obtain ⟨c, w1, rfl⟩ := List.exists_cons_of_ne_nil hne
  have hc := hw c (by simp)
  unfold strtok
  simp only [hstart]
  have e1 : A ++ ds ++ (c :: w1) ++ NUL :: t = A ++ ds ++ c :: (w1 ++ NUL :: t) := by simp
  rw [e1, strspn_at A ds c _ hds hc.1]
  have : A.length + ds.length = (A ++ ds).length := by simp
  rw [this, peek_at, if_neg hc.2, ← e1, strcspn_at (A ++ ds) (c :: w1) NUL t hw (Or.inl rfl)]
  have : (A ++ ds).length + (c :: w1).length = (A ++ ds ++ c :: w1).length := by
    simp only [List.length_append]
  rw [this, peek_at]
  simp

/-- The token is ended by a delimiter, which is overwritten with NUL. -/
theorem strtok_cut (A ds w : List Char) (d : Char) (t : List Char) (save : Nat) (str : Option Nat)
    (hstart : str.getD save = A.length) (hds : ∀ x ∈ ds, isDelim x = true)
    (hw : ∀ x ∈ w, isDelim x = false ∧ x ≠ NUL) (hne : w ≠ []) (hd : isDelim d = true) :
    strtok (A ++ ds ++ w ++ d :: t) save str LSH_TOK_DELIM =
      (some (A ++ ds).length, A ++ ds ++ w ++ NUL :: t, (A ++ ds ++ w).length + 1) := by
  obtain ⟨c, w1, rfl⟩ := List.exists_cons_of_ne_nil hne
  have hc := hw c (by simp)
  have hdn : d ≠ NUL := by
    intro h; rw [h, isDelim_NUL] at hd; exact absurd hd (by simp)
  unfold strtok
  simp only [hstart]
  have e1 : A ++ ds ++ (c :: w1) ++ d :: t = A ++ ds ++ c :: (w1 ++ d :: t) := by simp
  rw [e1, strspn_at A ds c _ hds hc.1]
  have : A.length + ds.length = (A ++ ds).length := by simp
  rw [this, peek_at, if_neg hc.2, ← e1, strcspn_at (A ++ ds) (c :: w1) d t hw (Or.inr hd)]
  have : (A ++ ds).length + (c :: w1).length = (A ++ ds ++ c :: w1).length := by
    simp only [List.length_append]
  rw [this, peek_at, if_neg hdn]
  simp

/-- Leading delimiters carry no word. -/
theorem wordsFrom_delims (ds t : List Char) (hds : ∀ x ∈ ds, isDelim x = true) :
    wordsFrom true (ds ++ t) = wordsFrom true t := by
  induction ds with
  | nil => rfl
  | cons d ds ih =>
    have hd := hds d (by simp)
    simp [wordsFrom, hd, ih (fun y hy => hds y (by simp [hy]))]

/-- Inside a word that runs to the end no further word starts. -/
theorem wordsFrom_inside_nil (w : List Char) (hw : ∀ x ∈ w, isDelim x = false) :
    wordsFrom false w = [] := by
  induction w with
  | nil => rfl
  | cons c w ih =>
    have hc := hw c (by simp)
    simp [wordsFrom, hc, ih (fun y hy => hw y (by simp [hy]))]

/-- Inside a word no further word starts before the delimiter ending it. -/
theorem wordsFrom_inside_cut (w : List Char) (d : Char) (t : List Char)
    (hw : ∀ x ∈ w, isDelim x = false) (hd : isDelim d = true) :
    wordsFrom false (w ++ d :: t) = wordsFrom true t := by
  induction w with
  | nil => simp [wordsFrom, hd]
  | cons c w ih =>
    have hc := hw c (by simp)
    simp [wordsFrom, hc, ih (fun y hy => hw y (by simp [hy]))]

/-- A string that is one word. -/
theorem wordsFrom_word_end (w : List Char) (hw : ∀ x ∈ w, isDelim x = false) (hne : w ≠ []) :
    wordsFrom true w = [w] := by
  obtain ⟨c, w1, rfl⟩ := List.exists_cons_of_ne_nil hne
  have hc := hw c (by simp)
  have h1 : ∀ x ∈ w1, isDelim x = false := fun y hy => hw y (by simp [hy])
  have h2 : w1.takeWhile (fun x => !isDelim x) = w1 := by
    rw [List.takeWhile_eq_self_iff]
    intro x hx; simp [h1 x hx]
  simp [wordsFrom, hc, wordsFrom_inside_nil w1 h1, h2]

/-- A word, a delimiter, and the rest. -/
theorem wordsFrom_word_cut (w : List Char) (d : Char) (t : List Char)
    (hw : ∀ x ∈ w, isDelim x = false) (hne : w ≠ []) (hd : isDelim d = true) :
    wordsFrom true (w ++ d :: t) = w :: wordsFrom true t := by
  obtain ⟨c, w1, rfl⟩ := List.exists_cons_of_ne_nil hne
  have hc := hw c (by simp)
  have h1 : ∀ x ∈ w1, isDelim x = false := fun y hy => hw y (by simp [hy])
  have h2 : (w1 ++ d :: t).takeWhile (fun x => !isDelim x) = w1 := by
    apply takeWhile_stop
    · intro x hx; simp [h1 x hx]
    · simp [hd]
  simp [wordsFrom, hc, wordsFrom_inside_cut w1 d t h1 hd, h2]

/-- Every string is a run of delimiters, then possibly a word, then possibly a
delimiter and a remainder. -/
theorem line_shape (s : List Char) :
    ∃ ds, (∀ x ∈ ds, isDelim x = true) ∧
      (s = ds ∨ ∃ w, (∀ x ∈ w, isDelim x = false) ∧ w ≠ [] ∧
        (s = ds ++ w ∨ ∃ d t, isDelim d = true ∧ s = ds ++ w ++ d :: t)) := by
  refine ⟨s.takeWhile isDelim, fun x hx => List.mem_takeWhile_imp hx, ?_⟩
  cases h1 : s.dropWhile isDelim with
  | nil =>
    left
    have := List.takeWhile_append_dropWhile isDelim s
    rw [h1] at this; simpa using this.symm
  | cons c s1 =>
    right
    have hc : isDelim c = false := by
      have := List.head?_dropWhile_not isDelim s
      rw [h1] at this
      simpa using this
    have hs : s = s.takeWhile isDelim ++ c :: s1 := by
      have := List.takeWhile_append_dropWhile isDelim s
      rw [h1] at this; exact this.symm
    refine ⟨(c :: s1).takeWhile (fun x => !isDelim x), fun x hx => ?_, ?_, ?_⟩
    · have := List.mem_takeWhile_imp hx
      simpa using this
    · simp [hc]
    · cases h2 : (c :: s1).dropWhile (fun x => !isDelim x) with
      | nil =>
        left
        have := List.takeWhile_append_dropWhile (fun x => !isDelim x) (c :: s1)
        rw [h2, List.append_nil] at this
        rw [this]; exact hs
      | cons d t =>
        right
        refine ⟨d, t, ?_, ?_⟩
        · have := List.head?_dropWhile_not (fun x => !isDelim x) (c :: s1)
          rw [h2] at this
          simpa using this
        · have := List.takeWhile_append_dropWhile (fun x => !isDelim x) (c :: s1)
          rw [h2] at this
          rw [List.append_assoc, this]; exact hs

/-- A stored word is what `cstr` reads. -/
theorem Stored.cstr_eq {mem : List Char} {save p : Nat} {w : List Char}
    (h : Stored mem save p w) : cstr mem p = String.mk w := by
  obtain ⟨pre, rest, rfl, rfl, hw, -⟩ := h
  unfold cstr
  rw [List.append_assoc, List.drop_left, takeWhile_stop _ w NUL rest]
  · intro x hx; simpa using hw x hx
  · simp

/-- Writes beyond the saved pointer leave stored words intact. -/
theorem Stored.keep {mem mem1 : List Char} {save save1 p : Nat} {w : List Char}
    (h : Stored mem save p w) (hsave : save ≤ save1)
    (hmem : mem1.take (save + 1) = mem.take (save + 1)) : Stored mem1 save1 p w := by
  obtain ⟨pre, rest, rfl, rfl, hw, hle⟩ := h
  refine ⟨pre, (rest.take (save - (pre.length + w.length))) ++ mem1.drop (save + 1),
    ?_, rfl, hw, by omega⟩
  have e1 : (pre ++ w ++ NUL :: rest).take (save + 1) =
      pre ++ w ++ NUL :: rest.take (save - (pre.length + w.length)) := by
    have : pre ++ w ++ NUL :: rest = (pre ++ w ++ [NUL]) ++ rest := by simp
    rw [this, List.take_append_eq_append_take, List.take_of_length_le (by simp; omega)]
    simp
    congr 1
    omega
  have := List.take_append_drop (save + 1) mem1
  rw [hmem, e1] at this
  exact this.symm.trans (by simp)

/-- One call of `strtok` on a buffer cut as consumed part, NUL-free rest, NUL and junk: the buffer keeps that shape, the consumed part only grows, and a returned token is the next word. -/
theorem strtok_step (A s junk : List Char) (save : Nat) (str : Option Nat)
    (hstart : str.getD save = A.length) (hs : ∀ x ∈ s, x ≠ NUL) :
    ∃ tok A1 s1,
      strtok (A ++ s ++ NUL :: junk) save str LSH_TOK_DELIM =
        (tok, A1 ++ s1 ++ NUL :: junk, A1.length) ∧
      (∀ x ∈ s1, x ≠ NUL) ∧ A.length ≤ A1.length ∧
      (A1 ++ s1 ++ NUL :: junk).take (A.length + 1) = (A ++ s ++ NUL :: junk).take (A.length + 1) ∧
      (tok = none → s1 = [] ∧ wordsFrom true s = []) ∧
      (∀ p, tok = some p → ∃ w, Stored (A1 ++ s1 ++ NUL :: junk) A1.length p w ∧
        wordsFrom true s = w :: wordsFrom true s1 ∧ s1.length < s.length) := by
  obtain ⟨ds, hds, hshape⟩ := line_shape s
  rcases hshape with rfl | ⟨w, hw, hne, rfl | ⟨d, t, hd, rfl⟩⟩
  · refine ⟨none, A ++ s, [], ?_, by simp, by simp, by simp, ?_, by simp⟩
    · simpa using strtok_none A s junk save str hstart hds
    · intro _
      have := wordsFrom_delims s [] hds
      simpa [wordsFrom] using this
  · have hw2 : ∀ x ∈ w, isDelim x = false ∧ x ≠ NUL :=
      fun x hx => ⟨hw x hx, hs x (by simp [hx])⟩
    refine ⟨some (A ++ ds).length, A ++ ds ++ w, [], ?_, by simp, by simp, by simp, by simp, ?_⟩
    · have := strtok_last A ds w junk save str hstart hds hw2 hne
      simpa using this
    · intro p hp
      simp at hp
      refine ⟨w, ⟨A ++ ds, junk, by simp, by simpa using hp, fun x hx => (hw2 x hx).2, ?_⟩, ?_, ?_⟩
      · rw [← hp]; simp; omega
      · rw [wordsFrom_delims ds w hds, wordsFrom_word_end w hw hne]; rfl
      · have : 0 < w.length := List.length_pos.mpr hne
        simp; omega
  · have hw2 : ∀ x ∈ w, isDelim x = false ∧ x ≠ NUL :=
      fun x hx => ⟨hw x hx, hs x (by simp [hx])⟩
    have hpos : 0 < w.length := List.length_pos.mpr hne
    refine ⟨some (A ++ ds).length, A ++ ds ++ w ++ [NUL], t, ?_, ?_, by simp, ?_, by simp, ?_⟩
    · have := strtok_cut A ds w d (t ++ NUL :: junk) save str hstart hds hw2 hne hd
      simpa using this
    · intro x hx; exact hs x (by simp [hx])
    · have e1 : A ++ ds ++ w ++ [NUL] ++ t ++ NUL :: junk =
          (A ++ ds ++ w) ++ (NUL :: (t ++ NUL :: junk)) := by simp
      have e2 : A ++ (ds ++ w ++ d :: t) ++ NUL :: junk =
          (A ++ ds ++ w) ++ (d :: (t ++ NUL :: junk)) := by simp
      have hlen : A.length + 1 ≤ (A ++ ds ++ w).length := by simp; omega
      rw [e1, e2, @List.take_append_of_le_length _ (A ++ ds ++ w) _ _ hlen,
        @List.take_append_of_le_length _ (A ++ ds ++ w) _ _ hlen]
    · intro p hp
      simp at hp
      refine ⟨w, ⟨A ++ ds, t ++ NUL :: junk, by simp, by simpa using hp,
        fun x hx => (hw2 x hx).2, ?_⟩, ?_, ?_⟩
      · rw [← hp]; simp; omega
      · rw [List.append_assoc, wordsFrom_delims ds _ hds, wordsFrom_word_cut w d t hw hne hd]
      · simp; omega

/-- Incrementing an `int` that holds `INT_MAX` overflows. -/
theorem int_add_overflow : int_add INT_MAX 1 = none := by
  decide

/-- Growing a block of `2^31 - 64` entries overflows `bufsize`: the addition
`bufsize += LSH_TOK_BUFSIZE` has no defined result there. -/
theorem grow_tokens_overflow (sys : Sys) (tokens : List Cell) (caps : List Nat) (w : World) :
    grow_tokens sys tokens 2147483584 2147483584 caps w = .undefined := by
  have h : int_add 2147483584 LSH_TOK_BUFSIZE = none := by decide
  simp [grow_tokens, h]

/-- Storing a token and passing the growth block keeps the shape of the token
block and of the logs, as long as the counters stay in the range of `int`. -/
theorem LoopInv.step {sys : Sys} (halloc : ∀ n, sys.alloc n = true) {st : Split}
    {ptrs : List Nat} (h : LoopInv st ptrs)
    (hb : st.position + 1 + LSH_TOK_BUFSIZE ≤ INT_MAX)
    (p : Nat) (mem : List Char) (save : Nat) (w : World) :
    int_add st.position 1 = some (st.position + 1) ∧
    ∃ tokens bufsize caps,
      grow_tokens sys (st.tokens.set st.position (.ptr p)) st.bufsize (st.position + 1)
        st.caps w = .returned (tokens, bufsize, caps) w ∧
      LoopInv { mem := mem, save := save, tokens := tokens, bufsize := bufsize,
                position := st.position + 1,
                stores := st.stores ++ [(st.position, st.tokens.length)], caps := caps }
        (ptrs ++ [p]) := by
  have hcap := h.cap
  have hlt : st.position < st.bufsize := by omega
  have hb1 : st.position + 1 + 64 ≤ INT_MAX := hb
  refine ⟨by unfold int_add; rw [if_pos (by omega)], ?_⟩
  have hset : st.tokens.set st.position (.ptr p) =
      (ptrs ++ [p]).map Cell.ptr ++ List.replicate (st.bufsize - (st.position + 1)) Cell.uninit := by
    rw [h.tokens_eq, List.set_append_right _ _ (by simp [h.len])]
    obtain ⟨n, hn⟩ : ∃ n, st.bufsize - st.position = n + 1 := ⟨st.bufsize - st.position - 1, by omega⟩
    have hn2 : st.bufsize - (st.position + 1) = n := by omega
    rw [hn, hn2]
    simp [h.len, List.replicate_succ]
  have hlenT : st.tokens.length = st.bufsize := by
    rw [h.tokens_eq]; simp [h.len]; omega
  have hstores : st.stores ++ [(st.position, st.tokens.length)] =
      (List.range (st.position + 1)).map (fun k => (k, 64 * (k / 64 + 1))) := by
    rw [List.range_succ, List.map_append, ← h.stores_eq, hlenT, hcap]
    rfl
  unfold grow_tokens
  by_cases hge : st.position + 1 ≥ st.bufsize
  · have hdiv : (st.position + 1) / 64 = st.position / 64 + 1 := by omega
    have hadd : int_add st.bufsize LSH_TOK_BUFSIZE = some (st.bufsize + LSH_TOK_BUFSIZE) := by
      unfold int_add
      rw [if_pos (by simp only [LSH_TOK_BUFSIZE]; omega)]
    refine ⟨_, _, _, by simp only [hge, hadd, halloc, if_true]; rfl, ?_⟩
    refine ⟨?_, by simp [h.len], ?_, hstores, ?_⟩
    · simp only []
      rw [hset]
      have : st.bufsize - (st.position + 1) = 0 := by omega
      rw [this]
      have : st.bufsize + LSH_TOK_BUFSIZE - (st.position + 1) = LSH_TOK_BUFSIZE := by
        simp only [LSH_TOK_BUFSIZE]; omega
      rw [this]
      simp
    · simp only [LSH_TOK_BUFSIZE]; omega
    · simp only [LSH_TOK_BUFSIZE]
      rw [hdiv, List.range_succ, List.map_append, ← h.caps_eq, hcap]
      rfl
  · have hdiv : (st.position + 1) / 64 = st.position / 64 := by omega
    refine ⟨_, _, _, by simp only [hge, if_false]; rfl, ?_⟩
    refine ⟨hset, by simp [h.len], ?_, hstores, ?_⟩
    · simp only []; omega
    · simp only []; rw [hdiv]; exact h.caps_eq

/-- The token loop, started after a call of `strtok`, returns with all words stored. -/
theorem split_loop_spec (sys : Sys) (halloc : ∀ n, sys.alloc n = true) (w : World)
    (junk : List Char) :
    ∀ (fuel : Nat) (tok : Option Nat) (st : Split) (ptrs : List Nat) (ws pend : List (List Char))
      (A s : List Char),
      st.mem = A ++ s ++ NUL :: junk → st.save = A.length → (∀ x ∈ s, x ≠ NUL) →
      LoopInv st ptrs → List.Forall₂ (Stored st.mem st.save) ptrs ws →
      (tok = none → pend = [] ∧ s = []) →
      (∀ p, tok = some p → s.length < fuel ∧ ∃ v, Stored st.mem st.save p v ∧ pend = [v]) →
      (ws ++ pend ++ wordsFrom true s).length + LSH_TOK_BUFSIZE ≤ INT_MAX →
      ∃ r ptrs1, split_loop sys fuel tok st w = .returned r w ∧ LoopInv r ptrs1 ∧
        List.Forall₂ (Stored r.mem r.save) ptrs1 (ws ++ pend ++ wordsFrom true s) := by
  intro fuel
  induction fuel with
  | zero =>
    intro tok st ptrs ws pend A s hmem hsave hs hinv hst hnone hsome hbound
    cases tok with
    | none =>
      obtain ⟨rfl, rfl⟩ := hnone rfl
      exact ⟨st, ptrs, rfl, hinv, by simpa [wordsFrom] using hst⟩
    | some p => exact absurd (hsome p rfl).1 (by omega)
  | succ fuel ih =>
    intro tok st ptrs ws pend A s hmem hsave hs hinv hst hnone hsome hbound
    cases tok with
    | none =>
      obtain ⟨rfl, rfl⟩ := hnone rfl
      exact ⟨st, ptrs, by simp [split_loop], hinv, by simpa [wordsFrom] using hst⟩
    | some p =>
      obtain ⟨hfuel, v, hv, rfl⟩ := hsome p rfl
      obtain ⟨tok1, A1, s1, hstrtok, hs1, hAle, htake, hn1, hp1⟩ :=
        strtok_step A s junk st.save none (by simpa using hsave) hs
      have hpos : st.position + 1 + LSH_TOK_BUFSIZE ≤ INT_MAX := by
        have h1 := hst.length_eq
        rw [hinv.len] at h1
        simp only [List.length_append, List.length_singleton] at hbound
        omega
      obtain ⟨hinc, tokens, bufsize, caps, hgrow, hinv1⟩ :=
        hinv.step halloc hpos p (A1 ++ s1 ++ NUL :: junk) A1.length w
      have hkeep : ∀ q u, Stored st.mem st.save q u →
          Stored (A1 ++ s1 ++ NUL :: junk) A1.length q u := by
        intro q u hq
        refine hq.keep (by omega) ?_
        rw [hsave, hmem]; exact htake
      have hst1 : List.Forall₂ (Stored (A1 ++ s1 ++ NUL :: junk) A1.length) (ptrs ++ [p])
          (ws ++ [v]) := by
        apply List.rel_append
        · exact hst.imp hkeep
        · exact List.Forall₂.cons (hkeep p v hv) List.Forall₂.nil
      have hwords : ∃ pend1, (tok1 = none → pend1 = [] ∧ s1 = []) ∧
          (∀ q, tok1 = some q → s1.length < fuel ∧
            ∃ u, Stored (A1 ++ s1 ++ NUL :: junk) A1.length q u ∧ pend1 = [u]) ∧
          wordsFrom true s = pend1 ++ wordsFrom true s1 := by
        cases tok1 with
        | none =>
          obtain ⟨h1, h2⟩ := hn1 rfl
          exact ⟨[], fun _ => ⟨rfl, h1⟩, fun q hq => by simp at hq, by rw [h2, h1]; rfl⟩
        | some q =>
          obtain ⟨u, hu, hw, hlen⟩ := hp1 q rfl
          refine ⟨[u], fun h => by simp at h, fun q1 hq1 => ?_, by rw [hw]; rfl⟩
          simp at hq1; subst hq1
          exact ⟨by omega, u, hu, rfl⟩
      obtain ⟨pend1, hpn, hps, hw⟩ := hwords
      obtain ⟨r, ptrs1, hr, hinvr, hstr⟩ := ih tok1
        { mem := A1 ++ s1 ++ NUL :: junk, save := A1.length, tokens := tokens,
          bufsize := bufsize, position := st.position + 1,
          stores := st.stores ++ [(st.position, st.tokens.length)], caps := caps }
        (ptrs ++ [p]) (ws ++ [v]) pend1 A1 s1 rfl rfl hs1 hinv1 hst1 hpn hps
        (by rw [hw] at hbound; simpa using hbound)
      have hlt : st.position < st.tokens.length := by
        have := hinv.cap
        rw [hinv.tokens_eq]; simp [hinv.len]; omega
      refine ⟨r, ptrs1, ?_, hinvr, ?_⟩
      · rw [← hr]
        simp only [split_loop, hlt, if_true, hinc, hgrow]
        rw [hmem, hstrtok]
      · rw [hw]; simpa using hstr

/-- The line buffer is the C string of the line, a NUL, and junk. -/
theorem line_buffer (line : String) :
    (∀ x ∈ cString line, x ≠ NUL) ∧ ∃ junk, line.data ++ [NUL] = cString line ++ NUL :: junk := by
  constructor
  · intro x hx
    have := List.mem_takeWhile_imp hx
    simpa using this
  · have h := List.takeWhile_append_dropWhile (fun c => c != NUL) line.data
    cases hd : line.data.dropWhile (fun c => c != NUL) with
    | nil =>
      rw [hd, List.append_nil] at h
      exact ⟨[], by unfold cString; rw [h]⟩
    | cons c rest =>
      have hc : c = NUL := by
        have := List.head?_dropWhile_not (fun c => c != NUL) line.data
        rw [hd] at this
        simpa using this
      refine ⟨rest ++ [NUL], ?_⟩
      unfold cString
      rw [hd, hc] at h
      conv_lhs => rw [← h]
      simp

/-- With allocation succeeding and the word count leaving room for one more
growth step within `int`, `lsh_split_line` returns, and the returned state has
the shape `SplitPost`. -/
theorem lsh_split_line_spec (sys : Sys) (halloc : ∀ n, sys.alloc n = true) (line : String)
    (w : World)
    (hbound : (wordsFrom true (cString line)).length + LSH_TOK_BUFSIZE ≤ INT_MAX) :
    ∃ r ptrs, lsh_split_line sys line w = .returned r w ∧ SplitPost line r ptrs := by
  obtain ⟨hcs, junk, hbuf⟩ := line_buffer line
  obtain ⟨tok, A1, s1, hstrtok, hs1, -, -, hn1, hp1⟩ :=
    strtok_step [] (cString line) junk 0 (some 0) rfl hcs
  have hlen : (cString line).length ≤ line.data.length := by
    unfold cString
    exact (List.takeWhile_sublist _).length_le
  have hinv0 : LoopInv
      { mem := A1 ++ s1 ++ NUL :: junk, save := A1.length,
        tokens := List.replicate LSH_TOK_BUFSIZE Cell.uninit, bufsize := LSH_TOK_BUFSIZE,
        position := 0, stores := [], caps := [LSH_TOK_BUFSIZE] } [] :=
    ⟨by simp, rfl, by simp [LSH_TOK_BUFSIZE], by simp, by simp [LSH_TOK_BUFSIZE, List.range_succ]⟩
  have hwords : ∃ pend, (tok = none → pend = [] ∧ s1 = []) ∧
      (∀ q, tok = some q → s1.length < line.data.length + 1 ∧
        ∃ u, Stored (A1 ++ s1 ++ NUL :: junk) A1.length q u ∧ pend = [u]) ∧
      wordsFrom true (cString line) = pend ++ wordsFrom true s1 := by
    cases tok with
    | none =>
      obtain ⟨h1, h2⟩ := hn1 rfl
      exact ⟨[], fun _ => ⟨rfl, h1⟩, fun q hq => by simp at hq, by rw [h2, h1]; rfl⟩
    | some q =>
      obtain ⟨u, hu, hw, hl⟩ := hp1 q rfl
      refine ⟨[u], fun h => by simp at h, fun q1 hq1 => ?_, by rw [hw]; rfl⟩
      simp at hq1; subst hq1
      exact ⟨by omega, u, hu, rfl⟩
  obtain ⟨pend, hpn, hps, hw⟩ := hwords
  obtain ⟨r, ptrs, hr, hinv, hst⟩ := split_loop_spec sys halloc w junk
    (line.data.length + 1) tok _ [] [] pend A1 s1 rfl rfl hs1 hinv0 List.Forall₂.nil hpn hps
    (by rw [hw] at hbound; simpa using hbound)
  have hcap := hinv.cap
  have hlenT : r.tokens.length = r.bufsize := by
    rw [hinv.tokens_eq]; simp [hinv.len]; omega
  refine ⟨{ r with tokens := r.tokens.set r.position .null,
                   stores := r.stores ++ [(r.position, r.tokens.length)] }, ptrs, ?_, ?_⟩
  · unfold lsh_split_line
    simp only [halloc, if_true]
    rw [hbuf]
    simp only [List.nil_append] at hstrtok
    rw [hstrtok]
    simp only []
    rw [hr]
    simp only [hlenT, show r.position < r.bufsize by omega, if_true]
  · refine ⟨?_, hinv.len, hinv.cap, ?_, hinv.caps_eq, ?_⟩
    · simp only []
      rw [hinv.tokens_eq, List.set_append_right _ _ (by simp [hinv.len])]
      obtain ⟨n, hn⟩ : ∃ n, r.bufsize - r.position = n + 1 :=
        ⟨r.bufsize - r.position - 1, by omega⟩
      have hn2 : r.bufsize - (r.position + 1) = n := by omega
      rw [hn, hn2]
      simp [hinv.len, List.replicate_succ]
    · simp only []
      rw [List.range_succ, List.map_append, ← hinv.stores_eq, hlenT, hcap]
      rfl
    · simp only []
      rw [hw]
      have : List.Forall₂ (Stored r.mem r.save) ptrs (pend ++ wordsFrom true s1) := by
        simpa using hst
      exact this.imp (fun _ _ h => h.cstr_eq)

/-- The only cut of the empty string. -/
theorem cuts_nil : cuts [] = [([], [])] := rfl

/-- The cuts of a non-empty string. -/
theorem cuts_cons (c : Char) (l : List Char) :
    cuts (c :: l) = ([], c :: l) :: (cuts l).map (fun x => (c :: x.1, x.2)) := by
  unfold cuts
  rw [List.inits_cons, List.tails_cons, List.zip_cons_cons, List.zip_map_left]
  congr 1

/-- Among the cuts of `rest`, at most one ends a maximal word started by `acc`: the one after the longest delimiter-free run. -/
theorem inner_acc (pre acc rest : List Char) (hacc : ∀ x ∈ acc, isDelim x = false) :
    ((cuts rest).filter fun y => isMaximalWord pre (acc ++ y.1) y.2).map (fun y => acc ++ y.1) =
      if pre.getLast?.all isDelim && !(acc ++ rest.takeWhile (fun x => !isDelim x)).isEmpty
      then [acc ++ rest.takeWhile (fun x => !isDelim x)] else [] := by
  induction rest generalizing acc with
  | nil =>
    have hall : acc.all (fun c => !isDelim c) = true := by
      simp only [List.all_eq_true]; intro x hx; simp [hacc x hx]
    simp only [cuts_nil, List.filter_cons, List.filter_nil, isMaximalWord, List.append_nil,
      hall, List.takeWhile_nil, List.head?_nil, Option.all_none, Bool.and_true]
    cases h1 : Option.all isDelim pre.getLast? <;> cases h2 : acc.isEmpty <;> simp
  | cons c r ih =>
    have hall : acc.all (fun c => !isDelim c) = true := by
      simp only [List.all_eq_true]; intro x hx; simp [hacc x hx]
    have htail : ((List.map (fun x : List Char × List Char => (c :: x.1, x.2)) (cuts r)).filter
        fun y => isMaximalWord pre (acc ++ y.1) y.2).map (fun y => acc ++ y.1) =
        ((cuts r).filter fun y => isMaximalWord pre ((acc ++ [c]) ++ y.1) y.2).map
          (fun y => (acc ++ [c]) ++ y.1) := by
      rw [List.filter_map, List.map_map]
      simp [Function.comp_def]
    have hhead : isMaximalWord pre (acc ++ []) (c :: r) =
        (!acc.isEmpty && pre.getLast?.all isDelim && isDelim c) := by
      simp [isMaximalWord, hall]
    rw [cuts_cons]
    cases hc : isDelim c with
    | false =>
      have hacc1 : ∀ x ∈ acc ++ [c], isDelim x = false := by
        intro x hx
        rcases List.mem_append.mp hx with h | h
        · exact hacc x h
        · simp at h; rw [h]; exact hc
      rw [List.filter_cons_of_neg (by show ¬ isMaximalWord pre (acc ++ []) (c :: r) = true; rw [hhead, hc]; simp), htail, ih (acc ++ [c]) hacc1]
      simp [hc]
    | true =>
      have hnil : (cuts r).filter (fun y => isMaximalWord pre ((acc ++ [c]) ++ y.1) y.2) = [] := by
        rw [List.filter_eq_nil_iff]
        intro y _
        simp [isMaximalWord, hc]
      have htw : List.takeWhile (fun x => !isDelim x) (c :: r) = [] := by simp [hc]
      rw [htw, List.append_nil]
      cases h1 : Option.all isDelim pre.getLast? <;> cases h2 : acc.isEmpty
      · rw [List.filter_cons_of_neg (by show ¬ isMaximalWord pre (acc ++ []) (c :: r) = true; rw [hhead, hc, h1, h2]; simp), htail, hnil]; simp
      · rw [List.filter_cons_of_neg (by show ¬ isMaximalWord pre (acc ++ []) (c :: r) = true; rw [hhead, hc, h1, h2]; simp), htail, hnil]; simp
      · rw [List.filter_cons_of_pos (by show isMaximalWord pre (acc ++ []) (c :: r) = true; rw [hhead, hc, h1, h2]; simp), List.map_cons, htail, hnil]
        simp
      · rw [List.filter_cons_of_neg (by show ¬ isMaximalWord pre (acc ++ []) (c :: r) = true; rw [hhead, hc, h1, h2]; simp), htail, hnil]; simp

/-- The maximal words counted with a context on the left are the words read left to right. -/
theorem maximalWords_from (ctx l : List Char) :
    ((cuts l).flatMap fun x =>
      ((cuts x.2).filter fun y => isMaximalWord (ctx ++ x.1) y.1 y.2).map Prod.fst) =
      wordsFrom (ctx.getLast?.all isDelim) l := by
  induction l generalizing ctx with
  | nil =>
    have := inner_acc ctx [] [] (by simp)
    simp at this
    simp [cuts_nil, wordsFrom, this]
  | cons c r ih =>
    rw [cuts_cons, List.flatMap_cons, List.flatMap_map]
    have h1 := inner_acc ctx [] (c :: r) (by simp)
    simp only [List.nil_append] at h1
    have h2 := ih (ctx ++ [c])
    simp only [List.append_assoc, List.singleton_append] at h2
    show (List.map Prod.fst (List.filter (fun y => isMaximalWord (ctx ++ []) y.1 y.2)
        (cuts (c :: r))) ++ (cuts r).flatMap fun a => List.map Prod.fst
          (List.filter (fun y => isMaximalWord (ctx ++ c :: a.1) y.1 y.2) (cuts a.2))) = _
    rw [h2, List.append_nil]
    have h3 : List.map Prod.fst (List.filter (fun y => isMaximalWord ctx y.1 y.2)
        (cuts (c :: r))) = _ := h1
    rw [h3]
    cases hc : isDelim c <;> simp [wordsFrom, hc]

/-- The maximal delimiter-free substrings are the words read left to right. -/
theorem maximalWords_eq (l : List Char) : maximalWords l = wordsFrom true l := by
  have := maximalWords_from [] l
  simpa [maximalWords] using this

/-- The final `position` is the number of words. -/
theorem SplitPost.position_eq {line : String} {r : Split} {ptrs : List Nat}
    (h : SplitPost line r ptrs) : r.position = (lineWords line).length := by
  have := h.words.length_eq
  rw [h.len] at this
  simp [lineWords, maximalWords_eq, this]

/-- The path of `lsh_cd` for a missing argument. -/
theorem lsh_cd_missing (sys : Sys) (args : List String) (w : World) (h : args[1]? = none) :
    lsh_cd sys args w = .returned 1 (w.write .stderr "lsh: expected argument to \"cd\"\n") := by
  simp [lsh_cd, h]

/-- The path of `lsh_cd` for a successful `chdir`. -/
theorem lsh_cd_ok (sys : Sys) (args : List String) (w : World) (path dir : String)
    (h : args[1]? = some path) (hc : sys.chdir w path = .ok dir) :
    lsh_cd sys args w = .returned 1 { cwd := dir, trace := w.trace ++ [.chdir path] } := by
  simp [lsh_cd, h, hc, World.log]

/-- The path of `lsh_cd` for a failing `chdir`. -/
theorem lsh_cd_error (sys : Sys) (args : List String) (w : World) (path : String) (e : Nat)
    (h : args[1]? = some path) (hc : sys.chdir w path = .error e) :
    lsh_cd sys args w = .returned 1
      { cwd := w.cwd,
        trace := w.trace ++ [.chdir path, .write .stderr ("lsh: " ++ sys.strerror e ++ "\n")] } := by
  simp [lsh_cd, h, hc, World.log, perror, World.write]

/-- Whatever `lsh_cd` does, it returns and never forks. -/
theorem lsh_cd_events (sys : Sys) (args : List String) (w : World) :
    ∃ status w1 evs, lsh_cd sys args w = .returned status w1 ∧
      w1.trace = w.trace ++ evs ∧ Event.fork ∉ evs := by
  cases h : args[1]? with
  | none => exact ⟨1, _, [_], lsh_cd_missing sys args w h, rfl, by simp⟩
  | some path =>
    cases hc : sys.chdir w path with
    | ok dir => exact ⟨1, _, _, lsh_cd_ok sys args w path dir h hc, rfl, by simp⟩
    | error e => exact ⟨1, _, _, lsh_cd_error sys args w path e h hc, rfl, by simp⟩

/-- The result of `lsh_help`. -/
theorem lsh_help_eq (sys : Sys) (args : List String) (w : World) :
    lsh_help sys args w = .returned 1
      { cwd := w.cwd,
        trace := w.trace ++
          [.write .stdout "AP LSH\n",
           .write .stdout "Type program names and arguments, and hit enter.\n",
           .write .stdout "The following are built in:\n",
           .write .stdout "  cd\n",
           .write .stdout "  help\n",
           .write .stdout "  exit\n",
           .write .stdout "Use the man command for information on other programs.\n"] } := by
  simp [lsh_help, lsh_num_builtins, builtin_str, List.range_succ, World.write, World.log]

/-- Whatever the arguments, `lsh_help` returns and never forks. -/
theorem lsh_help_events (sys : Sys) (args : List String) (w : World) :
    ∃ status w1 evs, lsh_help sys args w = .returned status w1 ∧
      w1.trace = w.trace ++ evs ∧ Event.fork ∉ evs :=
  ⟨1, _, _, lsh_help_eq sys args w, rfl, by simp⟩

/-- Output is appended event by event. -/
theorem output_append (cwd1 cwd2 : String) (tr evs : List Event) (fd : Fd) :
    World.output { cwd := cwd1, trace := tr ++ evs } fd =
      World.output { cwd := cwd2, trace := tr } fd ++ String.join (evs.map (Event.bytesOn fd)) := by
  apply String.ext
  simp [World.output, String.data_join, String.data_append]

/-- The wait loop consumes the statuses up to the first exit or signal report. -/
theorem wait_loop_returns (pid : Nat) (pre : List WaitStatus) (st : WaitStatus)
    (post : List WaitStatus) (w : World)
    (hpre : ∀ x ∈ pre, WIFEXITED x = false ∧ WIFSIGNALED x = false)
    (hst : WIFEXITED st = true ∨ WIFSIGNALED st = true) :
    wait_loop pid (pre ++ st :: post) w = .returned ()
      { cwd := w.cwd, trace := w.trace ++ (pre ++ [st]).map (Event.waitpid pid) } := by
  induction pre generalizing w with
  | nil =>
    rcases hst with h | h <;> simp [wait_loop, h, World.log]
  | cons x pre ih =>
    have hx := hpre x (by simp)
    have ih1 := ih (w.log (.waitpid pid x)) (fun y hy => hpre y (by simp [hy]))
    simp only [World.log] at ih1
    simp [wait_loop, hx.1, hx.2, ih1, World.log]

/-- The number of words of a line, counted left to right. -/
theorem lineWords_length (line : String) :
    (lineWords line).length = (wordsFrom true (cString line)).length := by
  simp [lineWords, maximalWords_eq]

/-- A growth step adds `LSH_TOK_BUFSIZE` to the capacity, and the block passes
unchanged when `position` is below the capacity. -/
theorem grow_tokens_capacity (sys : Sys) (tokens : List Cell) (bufsize position : Nat)
    (caps : List Nat) (w0 : World) (grown : List Cell × Nat × List Nat) (w1 : World)
    (h : grow_tokens sys tokens bufsize position caps w0 = .returned grown w1) :
    (position ≥ bufsize → grown.2.1 = bufsize + LSH_TOK_BUFSIZE) ∧
    (position < bufsize → grown.2.1 = bufsize) := by
  unfold grow_tokens at h
  by_cases hge : position ≥ bufsize
  · simp only [hge, if_true] at h
    cases hadd : int_add bufsize LSH_TOK_BUFSIZE with
    | none => simp [hadd] at h
    | some b =>
      have hb : b = bufsize + LSH_TOK_BUFSIZE := by
        unfold int_add at hadd
        split at hadd <;> simp at hadd
        exact hadd.symm
      by_cases ha : sys.alloc b = true
      · simp only [hadd, ha, if_true, Outcome.returned.injEq] at h
        rw [← h.1]
        exact ⟨fun _ => hb, fun hlt => absurd hge (by omega)⟩
      · simp [hadd, ha] at h
  · simp only [hge, if_false, Outcome.returned.injEq] at h
    rw [← h.1]
    exact ⟨fun h1 => absurd h1 hge, fun _ => rfl⟩

set_option maxRecDepth 100000 in
/-- The line of 128 words has 128 words. -/
theorem manyWords_length : (lineWords manyWords).length = 128 := by
  simp only [lineWords, maximalWords_eq, List.length_map]
  decide

/-! ## The claims -/

/-- C2. For a non-empty argument vector `arg0 :: rest`: if `arg0` equals the
name at index `i` of `builtin_str`, `lsh_execute` is the handler at index `i`
of `builtin_func` applied to the whole vector, which returns without a `fork`
event (the launcher is not entered); if `arg0` is none of the names, as is
the case for `CD`, `exit ` (with a trailing blank) and `cdx`, `lsh_execute` is
`lsh_launch` applied to the whole vector. -/
theorem lsh_execute_dispatch (sys : Sys) (arg0 : String) (rest : List String) (w : World) :
    (∀ (i : Nat) (name : String) (handler : Sys → List String → World → Outcome Int),
        builtin_str[i]? = some name → builtin_func[i]? = some handler →
        arg0 = name →
        lsh_execute sys (arg0 :: rest) w = handler sys (arg0 :: rest) w ∧
        ∃ status w1 evs, handler sys (arg0 :: rest) w = .returned status w1 ∧
          w1.trace = w.trace ++ evs ∧ Event.fork ∉ evs) ∧
    (arg0 ∉ builtin_str →
        lsh_execute sys (arg0 :: rest) w = lsh_launch sys (arg0 :: rest) w) ∧
    (arg0 = "CD" ∨ arg0 = "exit " ∨ arg0 = "cdx" → arg0 ∉ builtin_str) := by
  refine ⟨?_, ?_, ?_⟩
  · intro i name handler hn hf h0
    match i, hn, hf with
    | 0, hn, hf =>
      simp [builtin_str, builtin_func] at hn hf
      subst hn hf h0
      exact ⟨rfl, lsh_cd_events _ _ _⟩
    | 1, hn, hf =>
      simp [builtin_str, builtin_func] at hn hf
      subst hn hf h0
      exact ⟨rfl, lsh_help_events _ _ _⟩
    | 2, hn, hf =>
      simp [builtin_str, builtin_func] at hn hf
      subst hn hf h0
      exact ⟨rfl, 0, w, [], rfl, by simp, by simp⟩
    | n + 3, hn, hf => simp [builtin_str] at hn
  · intro h
    simp [builtin_str] at h
    obtain ⟨h1, h2, h3⟩ := h
    simp [lsh_execute, lsh_num_builtins, builtin_str, List.range_succ, execute_scan, h1, h2, h3]
  · intro h
    rcases h with rfl | rfl | rfl <;> decide

/-- Witness for C2: `CD`, `exit ` and `cdx` are not builtin names and go to
the launcher, while `cd` reaches `lsh_cd`. -/
theorem lsh_execute_dispatch_witness :
    lsh_execute demoSys ["CD", "/tmp"] demoWorld = lsh_launch demoSys ["CD", "/tmp"] demoWorld ∧
    lsh_execute demoSys ["exit "] demoWorld = lsh_launch demoSys ["exit "] demoWorld ∧
    lsh_execute demoSys ["cdx"] demoWorld = lsh_launch demoSys ["cdx"] demoWorld ∧
    lsh_execute demoSys ["cd", "/tmp"] demoWorld = lsh_cd demoSys ["cd", "/tmp"] demoWorld :=
  ⟨(lsh_execute_dispatch demoSys "CD" ["/tmp"] demoWorld).2.1 (by decide),
   (lsh_execute_dispatch demoSys "exit " [] demoWorld).2.1 (by decide),
   (lsh_execute_dispatch demoSys "cdx" [] demoWorld).2.1 (by decide),
   ((lsh_execute_dispatch demoSys "cd" ["/tmp"] demoWorld).1 0 "cd" lsh_cd rfl rfl rfl).1⟩

/-- C3. For every line made only of delimiter characters (the empty line
included), when the initial allocation succeeds, `lsh_split_line` returns a
vector whose first entry is the null terminator, that is the empty argument
vector, and `lsh_execute` on it returns 1 leaving the world (working
directory and trace of writes and calls) as it was. -/
theorem blank_line_noop (sys : Sys) (line : String) (w : World)
    (halloc : sys.alloc LSH_TOK_BUFSIZE = true) (hblank : ∀ c ∈ line.data, isDelim c = true) :
    ∃ r, lsh_split_line sys line w = .returned r w ∧
      r.tokens.head? = some Cell.null ∧ r.argv = some [] ∧
      lsh_execute sys [] w = .returned 1 w := by
  have h := strtok_none [] line.data [] 0 (some 0) rfl hblank
  simp only [List.nil_append] at h
  have hr : lsh_split_line sys line w = .returned
      { mem := line.data ++ [NUL], save := line.data.length,
        tokens := (List.replicate LSH_TOK_BUFSIZE Cell.uninit).set 0 .null,
        bufsize := LSH_TOK_BUFSIZE, position := 0,
        stores := [(0, (List.replicate LSH_TOK_BUFSIZE Cell.uninit).length)],
        caps := [LSH_TOK_BUFSIZE] } w := by
    unfold lsh_split_line
    simp only [halloc, if_true]
    rw [h]
    simp [split_loop, LSH_TOK_BUFSIZE]
  refine ⟨_, hr, ?_, ?_, rfl⟩
  · simp [LSH_TOK_BUFSIZE, List.replicate_succ]
  · simp [Split.argv, LSH_TOK_BUFSIZE, List.replicate_succ, readArgv]

/-- Witness for C3 on a line of blanks, tab, carriage return, bell and newline. -/
theorem blank_line_noop_witness :
    ∃ r, lsh_split_line demoSys "  \t\r\x07\n" demoWorld = .returned r demoWorld ∧
      r.tokens.head? = some Cell.null ∧ r.argv = some [] ∧
      lsh_execute demoSys [] demoWorld = .returned 1 demoWorld :=
  blank_line_noop demoSys "  \t\r\x07\n" demoWorld rfl (by decide)

/-- C4. For every argument vector whose first word is `exit`, whatever
follows, `lsh_execute` and `lsh_exit` return 0 and leave the world unchanged:
nothing is written, no directory is changed, no process is launched. -/
theorem lsh_execute_exit (sys : Sys) (rest : List String) (w : World) :
    lsh_execute sys ("exit" :: rest) w = .returned 0 w ∧
    lsh_exit sys ("exit" :: rest) w = .returned 0 w :=
  ⟨rfl, rfl⟩

/-- C5. With no second element, `lsh_cd` writes the diagnostic to the error
stream, issues no `chdir`, and returns 1; with a second element on which
`chdir` fails, it issues that `chdir`, reports the error on the error stream
and returns 1; in both cases the working directory is unchanged. -/
theorem lsh_cd_failure_noop (sys : Sys) (arg0 : String) (w : World) :
    (∃ w1, lsh_cd sys [arg0] w = .returned 1 w1 ∧ w1.cwd = w.cwd ∧
      w1.trace = w.trace ++ [.write .stderr "lsh: expected argument to \"cd\"\n"]) ∧
    (∀ (path : String) (rest : List String) (e : Nat), sys.chdir w path = .error e →
      ∃ w1, lsh_cd sys (arg0 :: path :: rest) w = .returned 1 w1 ∧ w1.cwd = w.cwd ∧
        w1.trace = w.trace ++
          [.chdir path, .write .stderr ("lsh: " ++ sys.strerror e ++ "\n")]) := by
  constructor
  · exact ⟨_, lsh_cd_missing sys [arg0] w rfl, rfl, rfl⟩
  · intro path rest e hc
    exact ⟨_, lsh_cd_error sys _ w path e (by simp) hc, rfl, rfl⟩

/-- Witness for C5: `cd` alone, and `cd /nowhere x` failing with `ENOENT`. -/
theorem lsh_cd_failure_noop_witness :
    (∃ w1, lsh_cd demoSys ["cd"] demoWorld = .returned 1 w1 ∧ w1.cwd = demoWorld.cwd ∧
      w1.trace = demoWorld.trace ++
        [.write .stderr "lsh: expected argument to \"cd\"\n"]) ∧
    (∃ w1, lsh_cd demoSys ["cd", "/nowhere", "x"] demoWorld = .returned 1 w1 ∧
      w1.cwd = demoWorld.cwd ∧
      w1.trace = demoWorld.trace ++
        [.chdir "/nowhere", .write .stderr ("lsh: " ++ demoSys.strerror 2 ++ "\n")]) :=
  ⟨(lsh_cd_failure_noop demoSys "cd" demoWorld).1,
   (lsh_cd_failure_noop demoSys "cd" demoWorld).2 "/nowhere" ["x"] 2 rfl⟩

/-- C6. For every argument vector and every world, `lsh_help` returns 1 and
appends to standard output one fixed text: the three banner lines, the names
`cd`, `help`, `exit` one per line in that order, and the closing line; the
text depends on neither the arguments nor the world, so repeated invocations
write the same bytes.  Nothing goes to the error stream and the working
directory is unchanged. -/
theorem lsh_help_output (sys : Sys) (args : List String) (w : World) :
    ∃ w1, lsh_help sys args w = .returned 1 w1 ∧
      w1.cwd = w.cwd ∧
      w1.trace = w.trace ++
          [.write .stdout "AP LSH\n",
           .write .stdout "Type program names and arguments, and hit enter.\n",
           .write .stdout "The following are built in:\n",
           .write .stdout "  cd\n",
           .write .stdout "  help\n",
           .write .stdout "  exit\n",
           .write .stdout "Use the man command for information on other programs.\n"] ∧
      w1.output .stdout = w.output .stdout ++
        "AP LSH\nType program names and arguments, and hit enter.\nThe following are built in:\n  cd\n  help\n  exit\nUse the man command for information on other programs.\n" ∧
      w1.output .stderr = w.output .stderr := by
  refine ⟨_, lsh_help_eq sys args w, rfl, rfl, ?_, ?_⟩
  · rw [output_append w.cwd w.cwd]
    rfl
  · rw [output_append w.cwd w.cwd]
    apply String.ext
    simp [String.data_join, String.data_append, Event.bytesOn]

/-- C7. For a non-empty argument vector: whenever `lsh_launch` returns, it
returns 1; when `fork` fails it reports the error and returns 1 without a
`waitpid`; when `fork` succeeds in the parent it calls `waitpid` until the
first status that is a normal exit or a termination by signal, then returns
1; in the child it never returns, and a failed `execvp` is reported and
followed by `exit(EXIT_FAILURE)`. -/
theorem lsh_launch_continue (sys : Sys) (arg0 : String) (rest : List String) (w : World) :
    (∀ status w1, lsh_launch sys (arg0 :: rest) w = .returned status w1 → status = 1) ∧
    (∀ e, sys.fork w = .failed e →
      lsh_launch sys (arg0 :: rest) w = .returned 1
        { cwd := w.cwd,
          trace := w.trace ++ [.fork, .write .stderr ("lsh: " ++ sys.strerror e ++ "\n")] }) ∧
    (∀ pid pre st post, sys.fork w = .parent pid →
      sys.waitpid (w.log .fork) pid = pre ++ st :: post →
      (∀ x ∈ pre, WIFEXITED x = false ∧ WIFSIGNALED x = false) →
      (WIFEXITED st = true ∨ WIFSIGNALED st = true) →
      lsh_launch sys (arg0 :: rest) w = .returned 1
        { cwd := w.cwd,
          trace := w.trace ++ .fork :: (pre ++ [st]).map (Event.waitpid pid) }) ∧
    (sys.fork w = .child →
      (∀ status w1, lsh_launch sys (arg0 :: rest) w ≠ .returned status w1) ∧
      ∀ e, sys.execvp (w.log .fork) arg0 (arg0 :: rest) = some e →
        lsh_launch sys (arg0 :: rest) w = .exited EXIT_FAILURE
          { cwd := w.cwd,
            trace := w.trace ++ [.fork, .execvp arg0 (arg0 :: rest),
              .write .stderr ("lsh: " ++ sys.strerror e ++ "\n")] }) := by
  refine ⟨?_, ?_, ?_, ?_⟩
  · intro status w1 h
    unfold lsh_launch at h
    cases hf : sys.fork w with
    | failed e => simp [hf] at h; exact h.1.symm
    | parent pid =>
      simp only [hf] at h
      split at h <;> simp at h
      exact h.1.symm
    | child =>
      simp only [hf] at h
      split at h <;> simp at h
  · intro e hf
    simp [lsh_launch, hf, perror, World.write, World.log]
  · intro pid pre st post hf hw hpre hst
    simp only [lsh_launch, hf, hw, wait_loop_returns pid pre st post _ hpre hst]
    simp [World.log]
  · intro hf
    constructor
    · intro status w1 h
      unfold lsh_launch at h
      simp only [hf] at h
      split at h <;> simp at h
    · intro e he
      simp only [World.log] at he
      simp [lsh_launch, hf, he, perror, World.write, World.log]

/-- Witness for C7: the parent waits through a stop report up to the exit
report; a failed `fork` returns at once; the child of a failed `execvp` exits. -/
theorem lsh_launch_continue_witness :
    lsh_launch demoSys ["ls", "-l"] demoWorld = .returned 1
      { cwd := "/",
        trace := [.fork, .waitpid 7 (.stopped 19), .waitpid 7 (.exited 0)] } ∧
    lsh_launch demoNoForkSys ["ls", "-l"] demoWorld = .returned 1
      { cwd := "/",
        trace := [.fork, .write .stderr ("lsh: " ++ demoNoForkSys.strerror 11 ++ "\n")] } ∧
    lsh_launch demoChildSys ["nonexistent-program-xyz"] demoWorld = .exited EXIT_FAILURE
      { cwd := "/",
        trace := [.fork, .execvp "nonexistent-program-xyz" ["nonexistent-program-xyz"],
          .write .stderr ("lsh: " ++ demoChildSys.strerror 2 ++ "\n")] } :=
  ⟨(lsh_launch_continue demoSys "ls" ["-l"] demoWorld).2.2.1 7 [.stopped 19] (.exited 0) []
      rfl rfl (by decide) (by decide),
   (lsh_launch_continue demoNoForkSys "ls" ["-l"] demoWorld).2.1 11 rfl,
   ((lsh_launch_continue demoChildSys "nonexistent-program-xyz" [] demoWorld).2.2.2 rfl).2 2 rfl⟩

/-- C10, counterexample. On a line of 128 words the capacity takes the values
64, 128, 192: the second growth step turns 128 into 192, not into `2 * 128`,
so the capacity after 2 growth steps is not `64 * 2^2`. -/
theorem split_capacity_not_doubling :
    ∃ r, lsh_split_line demoSys manyWords demoWorld = .returned r demoWorld ∧
      r.caps = [64, 128, 192] ∧
      r.caps[2]? ≠ some (64 * 2 ^ 2) ∧
      r.caps[2]? ≠ (r.caps[1]?).map (fun c => 2 * c) := by
  obtain ⟨r, ptrs, hr, hpost⟩ := lsh_split_line_spec demoSys (fun _ => rfl) manyWords demoWorld
    (by rw [← lineWords_length, manyWords_length]; decide)
  have hcaps : r.caps = [64, 128, 192] := by
    rw [hpost.caps_eq, hpost.position_eq, manyWords_length]
    decide
  refine ⟨r, hr, hcaps, ?_, ?_⟩ <;> rw [hcaps] <;> decide

/-- C10, amended. The capacity starts at 64 entries and each growth step adds
`LSH_TOK_BUFSIZE = 64` to it, the addition being done in `int`: whenever the
growth block returns after `position` has reached the capacity `c`, the new
capacity is `c + 64`; and on a line of `n` words, `n` below `2^31 - 64`
(allocation succeeding), the successive capacities are
`64, 128, ..., 64 * (n / 64 + 1)`, so the capacity after `k` growth steps is
`64 * (k + 1)`. -/
theorem split_capacity_linear (sys : Sys) (line : String) (w : World)
    (halloc : ∀ n, sys.alloc n = true)
    (hbound : (lineWords line).length + LSH_TOK_BUFSIZE ≤ INT_MAX) :
    (∀ tokens bufsize position caps w0 grown w1,
      grow_tokens sys tokens bufsize position caps w0 = .returned grown w1 →
      (position ≥ bufsize → grown.2.1 = bufsize + LSH_TOK_BUFSIZE) ∧
      (position < bufsize → grown.2.1 = bufsize)) ∧
    ∃ r, lsh_split_line sys line w = .returned r w ∧
      r.caps = (List.range ((lineWords line).length / 64 + 1)).map (fun k => 64 * (k + 1)) ∧
      r.bufsize = 64 * ((lineWords line).length / 64 + 1) ∧
      (∀ k c d, r.caps[k]? = some c → r.caps[k + 1]? = some d → d = c + LSH_TOK_BUFSIZE) := by
  refine ⟨grow_tokens_capacity sys, ?_⟩
  obtain ⟨r, ptrs, hr, hpost⟩ := lsh_split_line_spec sys halloc line w
    (by rw [← lineWords_length]; exact hbound)
  have hpos := hpost.position_eq
  refine ⟨r, hr, ?_, ?_, ?_⟩
  · rw [hpost.caps_eq, hpos]
  · rw [hpost.cap, hpos]
  · intro k c d hc hd
    rw [hpost.caps_eq] at hc hd
    simp only [List.getElem?_map, Option.map_eq_some'] at hc hd
    obtain ⟨a, ha, rfl⟩ := hc
    obtain ⟨b, hb, rfl⟩ := hd
    obtain ⟨h1, h2⟩ := List.getElem?_eq_some.mp ha
    obtain ⟨h3, h4⟩ := List.getElem?_eq_some.mp hb
    simp only [List.getElem_range] at h2 h4
    simp only [LSH_TOK_BUFSIZE]; omega

/-- Witness for the amended C10 on the line of 128 words. -/
theorem split_capacity_linear_witness :
    (∀ tokens bufsize position caps w0 grown w1,
      grow_tokens demoSys tokens bufsize position caps w0 = .returned grown w1 →
      (position ≥ bufsize → grown.2.1 = bufsize + LSH_TOK_BUFSIZE) ∧
      (position < bufsize → grown.2.1 = bufsize)) ∧
    ∃ r, lsh_split_line demoSys manyWords demoWorld = .returned r demoWorld ∧
      r.caps = (List.range ((lineWords manyWords).length / 64 + 1)).map (fun k => 64 * (k + 1)) ∧
      r.bufsize = 64 * ((lineWords manyWords).length / 64 + 1) ∧
      (∀ k c d, r.caps[k]? = some c → r.caps[k + 1]? = some d → d = c + LSH_TOK_BUFSIZE) :=
  split_capacity_linear demoSys manyWords demoWorld (fun _ => rfl)
    (by rw [manyWords_length]; decide)

end Lsh
